import Mathlib

/-!
Verification of the poly-sdk copy-trading core against its specification.

Each section embeds one part of the TypeScript source as Lean definitions
(rationals stand for JS numbers, explicit collaborator-behaviour arguments
stand for awaited promises) and proves the specified properties about them.
-/

namespace PolySdk

/-- Trade side, as the string union `'BUY' | 'SELL'` of the source. -/
inductive Side where
  | BUY
  | SELL
deriving DecidableEq, Repr

/-- `RunStats` counters (src/docs data model; used by the Risk Gate model). -/
structure RunStats where
  activityReceived : Nat
  activityMatched : Nat
  tradesDetected : Nat
  tradesExecuted : Nat
  tradesSkipped : Nat
  tradesFailed : Nat
deriving DecidableEq, Repr

/-! ## C1 — FIFO lot accounting (scripts/test-relayer-api.ts, wallet-deepdive) -/

/-- `interface Lot { size, cost, fromSub1Buy }` of wallet-deepdive. -/
structure Lot where
  size : ℚ
  cost : ℚ
  fromSub1Buy : Bool
deriving DecidableEq, Repr

/-- Result of one SELL pass over an asset's lot queue: the remaining queue and
the realized accumulators (`realizedSub1Cost`, `realizedSub1Proceeds` in the
source; fed by the lots whose `fromSub1Buy` flag is set). -/
structure SellOutcome where
  lots : List Lot
  realizedCost : ℚ
  realizedProceeds : ℚ
deriving DecidableEq, Repr

/-- The FIFO SELL loop of wallet-deepdive (`while (toSell > 0 && lots.length > 0)`,
lines 327-341): from the front lot take `min(lot.size, toSell)`, remove the
proportional share `lot.cost * take / lot.size` of its cost, accumulate the
realized cost and proceeds for tracked (`fromSub1Buy`) lots, and drop the lot
once its size reaches 0.  When the front lot is only partially consumed the
loop re-enters with `toSell = 0` and exits at once, so that branch returns
directly. -/
def sellLots (price : ℚ) : List Lot → ℚ → SellOutcome
  | [], _ => ⟨[], 0, 0⟩
  | lot :: rest, toSell =>
    if toSell ≤ 0 then ⟨lot :: rest, 0, 0⟩
    else
      let take := min lot.size toSell
      let costFrac := take / lot.size
      let costTaken := lot.cost * costFrac
      let proceedsTaken := take * price
      let addCost := if lot.fromSub1Buy then costTaken else 0
      let addProceeds := if lot.fromSub1Buy then proceedsTaken else 0
      if lot.size - take ≤ 0 then
        let r := sellLots price rest (toSell - take)
        ⟨r.lots, addCost + r.realizedCost, addProceeds + r.realizedProceeds⟩
      else
        ⟨⟨lot.size - take, lot.cost - costTaken, lot.fromSub1Buy⟩ :: rest,
          addCost, addProceeds⟩

/-- Sum of the sizes of a lot queue (`totalShares` of the Holding aggregate). -/
def sumSizes (lots : List Lot) : ℚ := (lots.map Lot.size).sum

/-- Sum of the cost bases of a lot queue. -/
def sumCosts (lots : List Lot) : ℚ := (lots.map Lot.cost).sum

theorem sumSizes_nil : sumSizes [] = 0 := rfl

theorem sumSizes_cons (l : Lot) (ls : List Lot) :
    sumSizes (l :: ls) = l.size + sumSizes ls := by
  simp [sumSizes]

theorem sumCosts_cons (l : Lot) (ls : List Lot) :
    sumCosts (l :: ls) = l.cost + sumCosts ls := by
  simp [sumCosts]

theorem sumSizes_nonneg (lots : List Lot) (h : ∀ l ∈ lots, 0 < l.size) :
    0 ≤ sumSizes lots := by
  induction lots with
  | nil => simp [sumSizes]
  | cons a ls ih =>
    rw [sumSizes_cons]
    have ha := h a (List.mem_cons_self a ls)
    have := ih (fun l hl => h l (List.mem_cons_of_mem a hl))
    linarith

theorem sellLots_invariants (price : ℚ) (lots : List Lot) (toSell : ℚ)
    (hpos : ∀ l ∈ lots, 0 < l.size) (hflag : ∀ l ∈ lots, l.fromSub1Buy = true)
    (ht : 0 ≤ toSell) :
    sumSizes (sellLots price lots toSell).lots
        = sumSizes lots - min (sumSizes lots) toSell ∧
    (sellLots price lots toSell).realizedProceeds
        = min (sumSizes lots) toSell * price ∧
    (sellLots price lots toSell).realizedCost
        + sumCosts (sellLots price lots toSell).lots = sumCosts lots ∧
    (∀ l ∈ (sellLots price lots toSell).lots, 0 < l.size) := by
  induction lots generalizing toSell with
  | nil =>
    simp [sellLots, sumSizes, sumCosts, min_eq_left ht]
  | cons lot rest ih =>
    have hlot : 0 < lot.size := hpos lot (List.mem_cons_self lot rest)
    have hrestpos : ∀ l ∈ rest, 0 < l.size :=
      fun l hl => hpos l (List.mem_cons_of_mem lot hl)
    have hrestflag : ∀ l ∈ rest, l.fromSub1Buy = true :=
      fun l hl => hflag l (List.mem_cons_of_mem lot hl)
    have hSrest : 0 ≤ sumSizes rest := sumSizes_nonneg _ hrestpos
    rw [sellLots]
    by_cases h0 : toSell ≤ 0
    · have hz : toSell = 0 := le_antisymm h0 ht
      subst hz
      have hS : 0 ≤ sumSizes (lot :: rest) := sumSizes_nonneg _ hpos
      simp only [if_pos (le_refl (0 : ℚ))]
      refine ⟨?_, ?_, ?_, hpos⟩
      · rw [min_eq_right hS]; ring
      · rw [min_eq_right hS]; ring
      · ring
    · have h0' : 0 < toSell := lt_of_not_le h0
      simp only [if_neg h0]
      have hflaghead : lot.fromSub1Buy = true := hflag lot (List.mem_cons_self lot rest)
      simp only [hflaghead, if_true]
      by_cases hdep : lot.size - min lot.size toSell ≤ 0
      · -- front lot fully consumed and shifted off the queue
        have htake_eq : min lot.size toSell = lot.size :=
          le_antisymm (min_le_left _ _) (by linarith)
        have hts_ge : lot.size ≤ toSell := min_eq_left_iff.mp htake_eq
        have hfrac : lot.cost * (min lot.size toSell / lot.size) = lot.cost := by
          rw [htake_eq, div_self (ne_of_gt hlot), mul_one]
        have ht' : 0 ≤ toSell - min lot.size toSell := by rw [htake_eq]; linarith
        obtain ⟨ih1, ih2, ih3, ih4⟩ := ih (toSell - min lot.size toSell) hrestpos hrestflag ht'
        have hmin : min (lot.size + sumSizes rest) toSell
            = lot.size + min (sumSizes rest) (toSell - lot.size) := by
          rcases le_total (sumSizes rest) (toSell - lot.size) with hc | hc
          · rw [min_eq_left hc, min_eq_left (by linarith)]
          · rw [min_eq_right hc, min_eq_right (by linarith)]; ring
        simp only [if_pos hdep]
        refine ⟨?_, ?_, ?_, ih4⟩
        · rw [ih1, sumSizes_cons, hmin, htake_eq]; ring
        · rw [ih2, sumSizes_cons, hmin, htake_eq]; ring
        · rw [hfrac, sumCosts_cons, htake_eq] at *
          linarith [ih3]
      · -- partial consumption: the lot stays with reduced size and cost
        have hts_le : toSell ≤ lot.size := by
          by_contra hc
          push_neg at hc
          apply hdep
          rw [min_eq_left hc.le]
          simp
        have htake_eq : min lot.size toSell = toSell := min_eq_right hts_le
        have hmin : min (lot.size + sumSizes rest) toSell = toSell :=
          min_eq_right (by linarith)
        simp only [if_neg hdep]
        refine ⟨?_, ?_, ?_, ?_⟩
        · rw [sumSizes_cons, sumSizes_cons, hmin, htake_eq]
          show lot.size - toSell + sumSizes rest = lot.size + sumSizes rest - toSell
          ring
        · rw [sumSizes_cons, hmin, htake_eq]
        · rw [sumCosts_cons, sumCosts_cons]
          show lot.cost * (min lot.size toSell / lot.size)
              + (lot.cost - lot.cost * (min lot.size toSell / lot.size) + sumCosts rest)
              = lot.cost + sumCosts rest
          ring
        · intro l hl
          rcases List.mem_cons.mp hl with rfl | hl'
          · show 0 < lot.size - min lot.size toSell
            linarith [lt_of_not_le hdep]
          · exact hrestpos l hl'

/-- C1. FIFO lot accounting: a SELL consumes lots from the front taking
`min(lot.size, remainingToSell)` from each, removes the proportional
`cost * take/lot.size` share of the lot's cost, drops depleted lots, and
accumulates `proceeds = Σ take * price` and `costRemoved = Σ costPortion`
with realized P&L `proceeds - costRemoved`.  Concretely, from lots
(size 10, cost 5) and (size 10, cost 6), selling 15 at 0.70 yields proceeds
10.50, cost removed 8.00, realized P&L 2.50, and leaves one lot of size 5
and cost 3.  In general (for tracked lots of positive size) the proceeds
equal `min(totalShares, sellSize) * price`, the cost removed plus the cost
left equals the original total cost, totalShares shrinks by exactly the
sold amount, and no depleted lot remains in the queue. -/
theorem fifo_sell_accounting :
    (sellLots (7/10) [⟨10, 5, true⟩, ⟨10, 6, true⟩] 15
        = ⟨[⟨5, 3, true⟩], 8, 21/2⟩ ∧
      (sellLots (7/10) [⟨10, 5, true⟩, ⟨10, 6, true⟩] 15).realizedProceeds
        - (sellLots (7/10) [⟨10, 5, true⟩, ⟨10, 6, true⟩] 15).realizedCost
        = 5/2) ∧
    ∀ (price : ℚ) (lots : List Lot) (toSell : ℚ),
      (∀ l ∈ lots, 0 < l.size) → (∀ l ∈ lots, l.fromSub1Buy = true) →
      0 ≤ toSell →
      sumSizes (sellLots price lots toSell).lots
          = sumSizes lots - min (sumSizes lots) toSell ∧
      (sellLots price lots toSell).realizedProceeds
          = min (sumSizes lots) toSell * price ∧
      (sellLots price lots toSell).realizedCost
          + sumCosts (sellLots price lots toSell).lots = sumCosts lots ∧
      (∀ l ∈ (sellLots price lots toSell).lots, 0 < l.size) := by
  have hconc : sellLots (7/10) [⟨10, 5, true⟩, ⟨10, 6, true⟩] 15
      = ⟨[⟨5, 3, true⟩], 8, 21/2⟩ := by
    simp only [sellLots]
    norm_num [min_def]
  refine ⟨⟨hconc, ?_⟩, ?_⟩
  · rw [hconc]
    norm_num
  · intro price lots toSell hpos hflag ht
    exact sellLots_invariants price lots toSell hpos hflag ht


/-! ## C3 — txHash dedup with bounded eviction
(src/docs/smart-money-service-refactor.md 160-174) -/

/-- The `seenTxHashes.size > 1000` cap of the dedup snippet. -/
def DEDUP_CAP : Nat := 1000

/-- The `slice(0, 500)` eviction batch of the dedup snippet. -/
def DEDUP_EVICT : Nat := 500

/-- The `seenTxHashes : Set<string>` state.  A JS `Set` iterates in insertion
order, so it is modelled as an insertion-ordered duplicate-free list (oldest
first); hashes matter only up to equality and are modelled as naturals. -/
structure DedupState where
  seen : List Nat
deriving DecidableEq, Repr

/-- The dedup loop of the refactor doc (lines 162-173) over a run of incoming
transaction hashes: a hash already seen is skipped (`continue`); a fresh hash
is added, then if the set size exceeds 1000 the 500 oldest
(`Array.from(set).slice(0, 500)`) are deleted, and the activity is handled
downstream.  Returns the final state and the downstream-handled hashes in
order. -/
def dedupRun : List Nat → DedupState → DedupState × List Nat
  | [], st => (st, [])
  | a :: t, st =>
    if a ∈ st.seen then dedupRun t st
    else
      let st1 : DedupState :=
        if DEDUP_CAP < (st.seen ++ [a]).length then ⟨(st.seen ++ [a]).drop DEDUP_EVICT⟩
        else ⟨st.seen ++ [a]⟩
      let r := dedupRun t st1
      (r.1, a :: r.2)

/-- The hashes a whole run (from the empty seen-set) hands downstream. -/
def dedupHandled (run : List Nat) : List Nat := (dedupRun run ⟨[]⟩).2

theorem dedupRun_cons_skip (a : Nat) (t : List Nat) (st : DedupState)
    (h : a ∈ st.seen) : dedupRun (a :: t) st = dedupRun t st := by
  rw [dedupRun, if_pos h]

theorem dedupRun_cons_evict (a : Nat) (t : List Nat) (st : DedupState)
    (h : a ∉ st.seen) (hev : DEDUP_CAP < (st.seen ++ [a]).length) :
    dedupRun (a :: t) st
      = ((dedupRun t ⟨(st.seen ++ [a]).drop DEDUP_EVICT⟩).1,
         a :: (dedupRun t ⟨(st.seen ++ [a]).drop DEDUP_EVICT⟩).2) := by
  rw [dedupRun, if_neg h]
  simp only [if_pos hev]

theorem dedupRun_cons_keep (a : Nat) (t : List Nat) (st : DedupState)
    (h : a ∉ st.seen) (hev : ¬ DEDUP_CAP < (st.seen ++ [a]).length) :
    dedupRun (a :: t) st
      = ((dedupRun t ⟨st.seen ++ [a]⟩).1, a :: (dedupRun t ⟨st.seen ++ [a]⟩).2) := by
  rw [dedupRun, if_neg h]
  simp only [if_neg hev]

theorem mem_drop_range_le {n k x : Nat} (h : x ∈ (List.range n).drop k) : k ≤ x := by
  obtain ⟨i, hi, hx⟩ := List.mem_iff_getElem.mp h
  rw [List.getElem_drop, List.getElem_range] at hx
  omega

theorem dedupRun_fresh_block (l : List Nat) : ∀ (st : DedupState), l.Nodup →
    (∀ x ∈ l, x ∉ st.seen) → st.seen.length + l.length ≤ DEDUP_CAP →
    dedupRun l st = (⟨st.seen ++ l⟩, l) := by
  induction l with
  | nil => intro st _ _ _; simp [dedupRun]
  | cons a t ih =>
    intro st hnd hfresh hlen
    obtain ⟨hat, hndt⟩ := List.nodup_cons.mp hnd
    have ha : a ∉ st.seen := hfresh a (List.mem_cons_self a t)
    have hnoev : ¬ DEDUP_CAP < (st.seen ++ [a]).length := by
      simp only [List.length_append, List.length_singleton]
      simp only [List.length_cons] at hlen
      omega
    rw [dedupRun, if_neg ha]
    simp only [if_neg hnoev]
    have hfresh1 : ∀ x ∈ t, x ∉ st.seen ++ [a] := by
      intro x hx
      simp only [List.mem_append, List.mem_singleton]
      push_neg
      exact ⟨hfresh x (List.mem_cons_of_mem a hx), fun he => hat (he ▸ hx)⟩
    have hlen1 : (st.seen ++ [a]).length + t.length ≤ DEDUP_CAP := by
      simp only [List.length_append, List.length_singleton]
      simp only [List.length_cons] at hlen
      omega
    rw [ih ⟨st.seen ++ [a]⟩ hndt hfresh1 hlen1]
    simp [List.append_assoc]

theorem dedupRun_append (l₁ l₂ : List Nat) : ∀ st,
    dedupRun (l₁ ++ l₂) st
      = ((dedupRun l₂ (dedupRun l₁ st).1).1,
         (dedupRun l₁ st).2 ++ (dedupRun l₂ (dedupRun l₁ st).1).2) := by
  induction l₁ with
  | nil => intro st; simp [dedupRun]
  | cons a t ih =>
    intro st
    rw [List.cons_append, dedupRun]
    by_cases ha : a ∈ st.seen
    · rw [if_pos ha, ih st]
      rw [dedupRun, if_pos ha]
    · rw [if_neg ha]
      simp only
      rw [ih]
      conv_rhs => rw [dedupRun, if_neg ha]
      simp

set_option maxRecDepth 10000 in
/-- Closed counterexample to C3 as stated: the run `[0, 1, ..., 1000, 0]`
(1002 activities, 1001 distinct hashes) hands hash 0 to the poller twice and
the downstream handler fires twice for it — inserting the 1001st distinct
hash exceeds the cap of 1000 and evicts the oldest 500 hashes, hash 0 among
them, so its second occurrence is no longer recognised. -/
theorem dedup_double_handling_cex :
    (dedupHandled (List.range 1001 ++ [0])).count 0 = 2 := by
  have hshape : List.range 1001 ++ [0] = List.range 1000 ++ [1000, 0] := by
    rw [List.range_succ 1000]
    simp
  have h1 : dedupRun (List.range 1000) ⟨[]⟩ = (⟨List.range 1000⟩, List.range 1000) := by
    have := dedupRun_fresh_block (List.range 1000) ⟨[]⟩ (List.nodup_range 1000)
      (by intro x _ hx; simp at hx) (by simp [DEDUP_CAP])
    simpa using this
  have hmem1000 : (1000 : Nat) ∉ List.range 1000 := by simp [List.mem_range]
  have hevict : DEDUP_CAP < (List.range 1000 ++ [1000]).length := by
    simp [DEDUP_CAP]
  have hseen1 : ((⟨List.range 1000⟩ : DedupState).seen ++ [1000]).drop DEDUP_EVICT
      = (List.range 1001).drop 500 := by
    show (List.range 1000 ++ [1000]).drop DEDUP_EVICT = (List.range 1001).drop 500
    rw [List.range_succ 1000]
    rfl
  have hmem0 : (0 : Nat) ∉ (List.range 1001).drop 500 := by
    intro h
    exact absurd (mem_drop_range_le h) (by norm_num)
  have hnoev2 : ¬ DEDUP_CAP < ((List.range 1001).drop 500 ++ [0]).length := by
    simp [DEDUP_CAP]
  have h2 : dedupRun [1000, 0] ⟨List.range 1000⟩
      = ((⟨(List.range 1001).drop 500 ++ [0]⟩ : DedupState), [1000, 0]) := by
    rw [dedupRun_cons_evict 1000 [0] ⟨List.range 1000⟩ hmem1000 hevict]
    rw [hseen1]
    rw [dedupRun_cons_keep 0 [] ⟨(List.range 1001).drop 500⟩ hmem0 hnoev2]
    rw [dedupRun]
  rw [dedupHandled, hshape, dedupRun_append, h1]
  simp only [h2]
  rw [List.count_append]
  have : (List.range 1000).count 0 = 1 :=
    List.count_eq_one_of_mem (List.nodup_range 1000) (List.mem_range.mpr (by norm_num))
  rw [this]
  decide

-- at most once / cap / suffix lemmas
theorem dedup_mem_no_rehandle : ∀ (run : List Nat) (st : DedupState) (h : Nat),
    run.length + st.seen.length ≤ DEDUP_CAP → h ∈ st.seen →
    (dedupRun run st).2.count h = 0 := by
  intro run
  induction run with
  | nil => intro st h _ _; simp [dedupRun]
  | cons a t ih =>
    intro st h hlen hmem
    rw [dedupRun]
    by_cases ha : a ∈ st.seen
    · rw [if_pos ha]
      exact ih st h (by simp only [List.length_cons] at hlen; omega) hmem
    · rw [if_neg ha]
      have hne : h ≠ a := fun he => ha (he ▸ hmem)
      have hnoev : ¬ DEDUP_CAP < (st.seen ++ [a]).length := by
        simp only [List.length_append, List.length_singleton]
        simp only [List.length_cons] at hlen
        omega
      simp only [if_neg hnoev]
      rw [List.count_cons_of_ne hne]
      exact ih ⟨st.seen ++ [a]⟩ h
        (by simp only [List.length_append, List.length_singleton]
            simp only [List.length_cons] at hlen
            omega)
        (List.mem_append_left _ hmem)

theorem dedup_at_most_once : ∀ (run : List Nat) (st : DedupState) (h : Nat),
    run.length + st.seen.length ≤ DEDUP_CAP →
    (dedupRun run st).2.count h ≤ 1 := by
  intro run
  induction run with
  | nil => intro st h _; simp [dedupRun]
  | cons a t ih =>
    intro st h hlen
    rw [dedupRun]
    by_cases ha : a ∈ st.seen
    · rw [if_pos ha]
      exact ih st h (by simp only [List.length_cons] at hlen; omega)
    · rw [if_neg ha]
      have hnoev : ¬ DEDUP_CAP < (st.seen ++ [a]).length := by
        simp only [List.length_append, List.length_singleton]
        simp only [List.length_cons] at hlen
        omega
      simp only [if_neg hnoev]
      have hlen1 : t.length + (st.seen ++ [a]).length ≤ DEDUP_CAP := by
        simp only [List.length_append, List.length_singleton]
        simp only [List.length_cons] at hlen
        omega
      by_cases he : h = a
      · subst he
        rw [List.count_cons_self]
        have : (dedupRun t ⟨st.seen ++ [h]⟩).2.count h = 0 :=
          dedup_mem_no_rehandle t ⟨st.seen ++ [h]⟩ h hlen1
            (List.mem_append_right _ (List.mem_singleton_self h))
        omega
      · rw [List.count_cons_of_ne he]
        exact ih ⟨st.seen ++ [a]⟩ h hlen1

theorem dedup_cap_invariant : ∀ (run : List Nat) (st : DedupState),
    st.seen.length ≤ DEDUP_CAP → (dedupRun run st).1.seen.length ≤ DEDUP_CAP := by
  intro run
  induction run with
  | nil => intro st h; simpa [dedupRun] using h
  | cons a t ih =>
    intro st hlen
    rw [dedupRun]
    by_cases ha : a ∈ st.seen
    · rw [if_pos ha]; exact ih st hlen
    · rw [if_neg ha]
      by_cases hev : DEDUP_CAP < (st.seen ++ [a]).length
      · simp only [if_pos hev]
        apply ih
        simp only [List.length_drop, List.length_append, List.length_singleton]
        simp [DEDUP_CAP, DEDUP_EVICT] at *
        omega
      · simp only [if_neg hev]
        apply ih
        show (st.seen ++ [a]).length ≤ DEDUP_CAP
        omega

theorem dedup_seen_suffix : ∀ (run : List Nat) (st : DedupState) (acc : List Nat),
    st.seen <:+ acc → (dedupRun run st).1.seen <:+ acc ++ (dedupRun run st).2 := by
  intro run
  induction run with
  | nil => intro st acc h; simpa [dedupRun] using h
  | cons a t ih =>
    intro st acc hsuf
    rw [dedupRun]
    by_cases ha : a ∈ st.seen
    · rw [if_pos ha]; exact ih st acc hsuf
    · rw [if_neg ha]
      obtain ⟨p, hp⟩ := hsuf
      have hsuf1 : st.seen ++ [a] <:+ acc ++ [a] := ⟨p, by rw [← hp, List.append_assoc]⟩
      by_cases hev : DEDUP_CAP < (st.seen ++ [a]).length
      · simp only [if_pos hev]
        have hdrop : (st.seen ++ [a]).drop DEDUP_EVICT <:+ acc ++ [a] :=
          (List.drop_suffix DEDUP_EVICT _).trans hsuf1
        have := ih ⟨(st.seen ++ [a]).drop DEDUP_EVICT⟩ (acc ++ [a]) hdrop
        simpa [List.append_assoc] using this
      · simp only [if_neg hev]
        have := ih ⟨st.seen ++ [a]⟩ (acc ++ [a]) hsuf1
        simpa [List.append_assoc] using this

/-- C3 (amended). Dedup with bounded eviction: as long as a hash has not been
evicted — in particular in any run of at most 1000 activities — handing the
same transaction hash to the poller twice yields at most one downstream
handling; the seen-hash set never exceeds the cap of 1000 entries; on
exceeding the cap exactly the 500 earliest-inserted hashes are evicted, so
the retained set is always a suffix of the first-handled order — eviction
never removes a more recently seen hash while an older one remains. -/
theorem dedup_cap_and_eviction_order :
    (∀ (run : List Nat) (st : DedupState) (txHash : Nat),
      run.length + st.seen.length ≤ DEDUP_CAP →
      (dedupRun run st).2.count txHash ≤ 1) ∧
    (∀ (run : List Nat) (st : DedupState),
      st.seen.length ≤ DEDUP_CAP → (dedupRun run st).1.seen.length ≤ DEDUP_CAP) ∧
    (∀ (a : Nat) (t : List Nat) (st : DedupState), a ∉ st.seen →
      DEDUP_CAP < (st.seen ++ [a]).length →
      dedupRun (a :: t) st
        = ((dedupRun t ⟨(st.seen ++ [a]).drop DEDUP_EVICT⟩).1,
           a :: (dedupRun t ⟨(st.seen ++ [a]).drop DEDUP_EVICT⟩).2)) ∧
    (∀ run : List Nat, (dedupRun run ⟨[]⟩).1.seen <:+ dedupHandled run) := by
  refine ⟨dedup_at_most_once, dedup_cap_invariant, dedupRun_cons_evict, ?_⟩
  intro run
  have h := dedup_seen_suffix run ⟨[]⟩ [] ⟨[], rfl⟩
  simpa [dedupHandled] using h

/-- Closed corollary of `dedup_cap_and_eviction_order`: on the short run
`[7, 7, 9]` the repeated hash 7 is handled once (and the handled stream is
`[7, 9]`). -/
theorem dedup_cap_and_eviction_order_witness :
    (dedupRun [7, 7, 9] ⟨[]⟩).2.count 7 ≤ 1 ∧ (dedupRun [7, 7, 9] ⟨[]⟩).2 = [7, 9] :=
  ⟨dedup_cap_and_eviction_order.1 [7, 7, 9] ⟨[]⟩ 7 (by decide), by decide⟩

/-! ## C4, C5 — poll tick: merge order and failure containment
(src/unnamed/part_001 43-84, src/docs/copy-trading-data-sources.md 244-265) -/

/-- The fields of an `Activity` the poll loop reads. -/
structure Activity where
  timestamp : Int
  side : Side
deriving DecidableEq, Repr

/-- The sort comparator `(a, b) => b.timestamp - a.timestamp` of
`pollTargetWallets`: `a` is placed before `b` when the comparator is
non-positive, i.e. when `b.timestamp ≤ a.timestamp`. -/
def laterFirst (a b : Activity) : Prop := b.timestamp ≤ a.timestamp

instance : DecidableRel laterFirst :=
  fun a b => inferInstanceAs (Decidable (b.timestamp ≤ a.timestamp))

instance : IsTotal Activity laterFirst :=
  ⟨fun a b => le_total b.timestamp a.timestamp⟩

instance : IsTrans Activity laterFirst :=
  ⟨fun _ _ _ hab hbc => le_trans hbc hab⟩

/-- `.sort((a, b) => b.timestamp - a.timestamp)` — a stable sort by the
comparator (ES2019 `Array.prototype.sort` is stable; insertion sort realizes
the same function). -/
def sortByTimestampDesc (l : List Activity) : List Activity :=
  List.insertionSort laterFirst l

/-- `Promise.all` over the per-wallet `getActivity` calls: the whole fan-in
rejects with the first rejection, otherwise collects every wallet's list in
order.  There is no per-wallet catch in `pollTargetWallets`. -/
def promiseAll : List (Except String (List Activity)) → Except String (List (List Activity))
  | [] => .ok []
  | r :: rs =>
    match r with
    | .error e => .error e
    | .ok xs =>
      match promiseAll rs with
      | .error e => .error e
      | .ok xss => .ok (xs :: xss)

/-- `pollTargetWallets` (part_001 lines 43-67) with each wallet's query
outcome made explicit: await all queries, advance `lastCheckTimestamp` to
`now`, and return the flattened, comparator-sorted batch.  A rejected query
rejects the whole call (the timestamp is then not advanced). -/
def pollTargetWallets (now : Int)
    (queryResults : List (Except String (List Activity))) :
    Except String (Int × List Activity) :=
  match promiseAll queryResults with
  | .error e => .error e
  | .ok xss => .ok (now, sortByTimestampDesc xss.flatten)

/-- One tick of the `setInterval` callback in `startCopyTrading` (part_001
lines 69-84): the poll runs inside `try { ... } catch (error) { console.error }`,
so a rejection is logged and swallowed — the tick delivers nothing, keeps the
previous `lastCheckTimestamp`, and no error reaches the caller of the poll
loop.  Returns (timestamp state, activities handed downstream, whether a poll
error was caught). -/
def startCopyTradingTick (lastCheck now : Int)
    (queryResults : List (Except String (List Activity))) :
    Int × List Activity × Bool :=
  match pollTargetWallets now queryResults with
  | .ok (_, acts) => (now, acts, false)
  | .error _ => (lastCheck, [], true)

/-- Modelled from the spec's words, for comparison with the code: a batch in
ascending timestamp order. -/
def sortedAscendingByTimestamp (l : List Activity) : Prop :=
  l.Sorted fun a b => a.timestamp ≤ b.timestamp

theorem sortDesc_sorted (l : List Activity) : (sortByTimestampDesc l).Sorted laterFirst :=
  List.sorted_insertionSort laterFirst l

theorem sortDesc_perm (l : List Activity) : (sortByTimestampDesc l).Perm l :=
  List.perm_insertionSort laterFirst l

theorem promiseAll_error : ∀ (rs : List (Except String (List Activity))),
    (∃ r ∈ rs, ∃ e, r = .error e) → ∃ e, promiseAll rs = .error e := by
  intro rs
  induction rs with
  | nil => rintro ⟨r, hr, _⟩; exact absurd hr (List.not_mem_nil r)
  | cons r rest ih =>
    rintro ⟨r', hr', e, he⟩
    rcases List.mem_cons.mp hr' with rfl | hmem
    · subst he
      exact ⟨e, rfl⟩
    · match r with
      | .error e₀ => exact ⟨e₀, rfl⟩
      | .ok xs =>
        obtain ⟨e₁, he₁⟩ := ih ⟨r', hmem, e, he⟩
        refine ⟨e₁, ?_⟩
        rw [promiseAll, he₁]

/-- Closed counterexample to C4 as stated: one wallet returns activities at
timestamps 1 and 2; the batch handed downstream is `[2, 1]` — sorted
descending by the comparator `(a, b) => b.timestamp - a.timestamp` — which is
not in ascending timestamp order. -/
theorem poll_sort_ascending_cex :
    pollTargetWallets 100 [Except.ok [⟨1, Side.BUY⟩, ⟨2, Side.BUY⟩]]
      = .ok (100, [⟨2, Side.BUY⟩, ⟨1, Side.BUY⟩]) ∧
    ¬ sortedAscendingByTimestamp [⟨2, Side.BUY⟩, ⟨1, Side.BUY⟩] := by
  constructor
  · rfl
  · intro h
    have := (List.sorted_cons.mp h).1 ⟨1, Side.BUY⟩ (by simp)
    norm_num at this

/-- C4 (amended). On a fully successful tick the per-wallet results are
flattened into a single batch and sorted **descending** by timestamp (the
comparator `(a, b) => b.timestamp - a.timestamp`) before being handed
downstream: the output is a permutation of the flattened input, sorted so
that each activity's timestamp is ≥ the next one's.  The function of the
observed queries is deterministic, so two runs over the same cross-wallet
events process them in the same order. -/
theorem poll_merge_sorted_descending (now : Int)
    (queryResults : List (Except String (List Activity)))
    (xss : List (List Activity)) (hok : promiseAll queryResults = .ok xss) :
    pollTargetWallets now queryResults = .ok (now, sortByTimestampDesc xss.flatten) ∧
    (sortByTimestampDesc xss.flatten).Sorted laterFirst ∧
    (sortByTimestampDesc xss.flatten).Perm xss.flatten := by
  refine ⟨?_, sortDesc_sorted _, sortDesc_perm _⟩
  rw [pollTargetWallets, hok]

/-- Closed corollary of `poll_merge_sorted_descending` at a concrete input. -/
theorem poll_merge_sorted_descending_witness :
    pollTargetWallets 5 [Except.ok [⟨3, Side.BUY⟩]] = .ok (5, [⟨3, Side.BUY⟩]) :=
  (poll_merge_sorted_descending 5 [Except.ok [⟨3, Side.BUY⟩]] [[⟨3, Side.BUY⟩]] rfl).1

/-- Closed counterexample to C5 as stated: with wallet 1 failing and wallet 2
returning one activity, the tick delivers nothing (wallet 2's result is
dropped with the rejected `Promise.all`), though the error is caught; the
same wallet-2 result alone is delivered when no peer fails. -/
theorem tick_partial_results_cex :
    startCopyTradingTick 50 100 [Except.error "boom", Except.ok [⟨1, Side.BUY⟩]]
      = (50, [], true) ∧
    startCopyTradingTick 50 100 [Except.ok [⟨1, Side.BUY⟩]]
      = (100, [⟨1, Side.BUY⟩], false) := by
  constructor
  · rfl
  · rfl

/-- C5 (amended). During one poll tick a single wallet's query failure makes
the whole `Promise.all` fan-in reject, so the tick delivers **no** results —
also not the other wallets' — but the failure is contained: the error is
caught by the tick's try/catch, nothing propagates to the caller of the poll
loop, and `lastCheckTimestamp` is left unadvanced so the same window is
retried next tick.  Only a tick with every wallet succeeding delivers the
merged batch. -/
theorem tick_failure_containment (lastCheck now : Int)
    (queryResults : List (Except String (List Activity))) :
    ((∃ r ∈ queryResults, ∃ e, r = Except.error e) →
      startCopyTradingTick lastCheck now queryResults = (lastCheck, [], true)) ∧
    (∀ xss, promiseAll queryResults = .ok xss →
      startCopyTradingTick lastCheck now queryResults
        = (now, sortByTimestampDesc xss.flatten, false)) := by
  constructor
  · intro hex
    obtain ⟨e, he⟩ := promiseAll_error queryResults hex
    rw [startCopyTradingTick, pollTargetWallets, he]
  · intro xss hok
    rw [startCopyTradingTick, pollTargetWallets, hok]

/-! ## C6 — waitForFill confirmation polling (scripts/e2e-builder-test.ts 133-164) -/

/-- `OrderStatus` values from src/core/types used by `waitForFill`. -/
inductive OrderStatus where
  | NEW
  | PARTIALLY_FILLED
  | FILLED
  | CANCELLED
  | EXPIRED
  | REJECTED
deriving DecidableEq, Repr

/-- The terminal statuses of the order state machine. -/
def isTerminal : OrderStatus → Bool
  | .FILLED => true
  | .CANCELLED => true
  | .EXPIRED => true
  | .REJECTED => true
  | _ => false

/-- The `{ filled, order }` record `waitForFill` returns (`order` is the last
status read, `none` when `getOrder` returned null). -/
structure FillCheck where
  filled : Bool
  order : Option OrderStatus
deriving DecidableEq, Repr

/-- `await sleep(2000)` between polls. -/
def POLL_INTERVAL_MS : Nat := 2000

/-- Default `timeoutMs = 15000`, used for the limit BUY/SELL of steps 5-6. -/
def LIMIT_FILL_TIMEOUT_MS : Nat := 15000

/-- `timeoutMs = 10000` passed for the market BUY of step 7. -/
def MARKET_FILL_TIMEOUT_MS : Nat := 10000

/-- Number of loop iterations of `while (Date.now() - start < timeoutMs)` when
each iteration ends in `sleep(2000)`: polls happen at elapsed 0, 2000, ... ms,
so ⌈timeoutMs / 2000⌉ polls run before the final status check. -/
def numPolls (timeoutMs : Nat) : Nat :=
  (timeoutMs + (POLL_INTERVAL_MS - 1)) / POLL_INTERVAL_MS

/-- The poll loop of `waitForFill`: `getOrder k` is the status returned by the
k-th `tradingService.getOrder` call inside the loop, `finalOrder` the one
returned by the final check after the timeout.  Mirrors lines 141-163:
null order aborts with `filled = false`; `FILLED` returns `filled = true`;
`CANCELLED`/`EXPIRED`/`REJECTED` return `filled = false`; anything else
(`PARTIALLY_FILLED` included) sleeps and polls again; on timeout the final
status decides `filled`. -/
def pollLoop (getOrder : Nat → Option OrderStatus) (finalOrder : Option OrderStatus) :
    Nat → Nat → FillCheck
  | 0, _ => ⟨decide (finalOrder = some .FILLED), finalOrder⟩
  | fuel + 1, k =>
    match getOrder k with
    | none => ⟨false, none⟩
    | some st =>
      if st = .FILLED then ⟨true, some st⟩
      else if st = .CANCELLED ∨ st = .EXPIRED ∨ st = .REJECTED then ⟨false, some st⟩
      else pollLoop getOrder finalOrder fuel (k + 1)

/-- `waitForFill` with its collaborator's answers made explicit. -/
def waitForFill (getOrder : Nat → Option OrderStatus) (finalOrder : Option OrderStatus)
    (timeoutMs : Nat) : FillCheck :=
  pollLoop getOrder finalOrder (numPolls timeoutMs) 0

theorem pollLoop_filled_iff (g : Nat → Option OrderStatus) (f : Option OrderStatus) :
    ∀ fuel k, (pollLoop g f fuel k).filled = true ↔
      (pollLoop g f fuel k).order = some OrderStatus.FILLED := by
  intro fuel
  induction fuel with
  | zero =>
    intro k
    simp [pollLoop]
  | succ n ih =>
    intro k
    rw [pollLoop]
    cases hg : g k with
    | none => simp
    | some st =>
      by_cases h1 : st = OrderStatus.FILLED
      · subst h1; simp
      · by_cases h2 : st = OrderStatus.CANCELLED ∨ st = OrderStatus.EXPIRED
            ∨ st = OrderStatus.REJECTED
        · simp only [if_neg h1, if_pos h2]
          simp [h1]
        · simp only [if_neg h1, if_neg h2]
          exact ih (k + 1)

theorem pollLoop_partial_continues (g : Nat → Option OrderStatus) (f : Option OrderStatus)
    (fuel k : Nat) (h : g k = some OrderStatus.PARTIALLY_FILLED) :
    pollLoop g f (fuel + 1) k = pollLoop g f fuel (k + 1) := by
  rw [pollLoop, h]
  simp

theorem pollLoop_terminal_stops (g : Nat → Option OrderStatus) (f : Option OrderStatus)
    (fuel k : Nat) (st : OrderStatus) (hg : g k = some st) (hterm : isTerminal st = true) :
    pollLoop g f (fuel + 1) k = ⟨decide (st = OrderStatus.FILLED), some st⟩ := by
  rw [pollLoop, hg]
  cases st <;> simp_all [isTerminal]

theorem pollLoop_all_partial (g : Nat → Option OrderStatus) (f : Option OrderStatus) :
    ∀ fuel k, (∀ j, j < fuel → g (k + j) = some OrderStatus.PARTIALLY_FILLED) →
      pollLoop g f fuel k = ⟨decide (f = some OrderStatus.FILLED), f⟩ := by
  intro fuel
  induction fuel with
  | zero => intro k _; rfl
  | succ n ih =>
    intro k hall
    have h0 : g k = some OrderStatus.PARTIALLY_FILLED := by
      simpa using hall 0 (Nat.succ_pos n)
    rw [pollLoop_partial_continues g f n k h0]
    apply ih
    intro j hj
    have := hall (j + 1) (by omega)
    simpa [Nat.add_assoc, Nat.add_comm 1 j] using this

/-- C6. Confirmation polling: `waitForFill` polls every 2 s up to the timeout
(15 s default for the limit orders, 10 s for the market order, i.e. 8 and 5
polls); `FILLED`, `CANCELLED`, `EXPIRED` and `REJECTED` are terminal and stop
the loop at once, `PARTIALLY_FILLED` is not terminal and polling continues;
and the result has `filled = true` exactly when the status it settled on —
at some poll, or at the final check after the timeout — is `FILLED`. -/
theorem wait_for_fill_state_machine (g : Nat → Option OrderStatus)
    (f : Option OrderStatus) (t : Nat) :
    (numPolls LIMIT_FILL_TIMEOUT_MS = 8 ∧ numPolls MARKET_FILL_TIMEOUT_MS = 5) ∧
    (isTerminal .FILLED = true ∧ isTerminal .CANCELLED = true ∧
      isTerminal .EXPIRED = true ∧ isTerminal .REJECTED = true ∧
      isTerminal .PARTIALLY_FILLED = false ∧ isTerminal .NEW = false) ∧
    ((waitForFill g f t).filled = true ↔
      (waitForFill g f t).order = some OrderStatus.FILLED) ∧
    (∀ fuel k st, g k = some st → isTerminal st = true →
      pollLoop g f (fuel + 1) k = ⟨decide (st = OrderStatus.FILLED), some st⟩) ∧
    (∀ fuel k, g k = some OrderStatus.PARTIALLY_FILLED →
      pollLoop g f (fuel + 1) k = pollLoop g f fuel (k + 1)) ∧
    ((∀ j, j < numPolls t → g j = some OrderStatus.PARTIALLY_FILLED) →
      waitForFill g f t = ⟨decide (f = some OrderStatus.FILLED), f⟩) := by
  refine ⟨⟨by decide, by decide⟩, ⟨rfl, rfl, rfl, rfl, rfl, rfl⟩, ?_, ?_, ?_, ?_⟩
  · exact pollLoop_filled_iff g f (numPolls t) 0
  · intro fuel k st hg hterm
    exact pollLoop_terminal_stops g f fuel k st hg hterm
  · intro fuel k h
    exact pollLoop_partial_continues g f fuel k h
  · intro hall
    exact pollLoop_all_partial g f (numPolls t) 0 (fun j hj => by simpa using hall j hj)

/-! ## C7 — ledger untouched without an executed fill
(crypto-copy-trade.ts 179-198, e2e-builder-test.ts 536-541) -/

/-- One entry of the `holdings` map of crypto-copy-trade
(`tokenId -> { shares, costBasis, marketSlug }`). -/
structure Holding where
  shares : ℚ
  costBasis : ℚ
  marketSlug : String
deriving DecidableEq, Repr

/-- The fields of a source trade that the `onTrade` holdings update reads. -/
structure CopyTrade where
  side : Side
  tokenId : Option String
  marketSlug : Option String

/-- The fields of the per-trade result that the `onTrade` holdings update reads. -/
structure CopyTradeResult where
  success : Bool

/-- `holdings.get(key)` over the map modelled as an association list. -/
def hGet : List (String × Holding) → String → Option Holding
  | [], _ => none
  | (k, v) :: rest, key => if k = key then some v else hGet rest key

/-- `holdings.set(key, v)` (replace the binding or append a new one). -/
def hSet : List (String × Holding) → String → Holding → List (String × Holding)
  | [], key, v => [(key, v)]
  | (k, w) :: rest, key, v =>
    if k = key then (key, v) :: rest else (k, w) :: hSet rest key v

/-- `holdings.delete(key)`. -/
def hDelete : List (String × Holding) → String → List (String × Holding)
  | [], _ => []
  | (k, w) :: rest, key => if k = key then rest else (k, w) :: hDelete rest key

/-- The holdings update at the end of `onTrade` (crypto-copy-trade 179-198):
guarded by `result.success && trade.tokenId`; a BUY adds `copySize` shares and
`copyValue` cost to the token's entry (creating it if absent); a SELL removes
`copySize` shares and the `min(1, copySize/shares)` fraction of the cost
basis, deleting the entry once its shares reach 0. -/
def applyTrade (holdings : List (String × Holding)) (trade : CopyTrade)
    (result : CopyTradeResult) (copySize copyValue : ℚ) : List (String × Holding) :=
  if result.success then
    match trade.tokenId with
    | none => holdings
    | some key =>
      match trade.side with
      | .BUY =>
        match hGet holdings key with
        | some cur =>
          hSet holdings key ⟨cur.shares + copySize, cur.costBasis + copyValue, cur.marketSlug⟩
        | none => hSet holdings key ⟨copySize, copyValue, trade.marketSlug.getD "unknown"⟩
      | .SELL =>
        match hGet holdings key with
        | some cur =>
          if 0 < cur.shares then
            let frac := min 1 (copySize / cur.shares)
            let newShares := cur.shares - copySize
            if newShares ≤ 0 then hDelete holdings key
            else hSet holdings key ⟨newShares, cur.costBasis - cur.costBasis * frac, cur.marketSlug⟩
          else holdings
        | none => holdings
  else holdings

/-- The tail of e2e step 5/6 after `waitForFill` (lines 533-541): on a fill the
step records success; otherwise `cancelOrder` is attempted inside
`try { ... } catch { /* ok */ }` — the cancel outcome (`cancelError`) cannot
influence the recorded result — and the step records failure. -/
def settleFill (orderId : String) (fr : FillCheck) (cancelError : Option String)
    (results : List Bool) (cancels : List String) : List Bool × List String :=
  if fr.filled then (results ++ [true], cancels)
  else (results ++ [false], cancels ++ [orderId])

/-- C7. Ledger atomicity on failure: a trade whose execution did not fully
fill leads to a best-effort cancel (the order id is handed to `cancelOrder`,
and any cancel error is swallowed — the settled outcome is the same whatever
the cancel returned), the per-trade result carries `success = false`, and the
holdings map is left completely unchanged; only `success = true` results ever
modify holdings. -/
theorem ledger_frame_on_failure :
    (∀ holdings trade result copySize copyValue, result.success = false →
      applyTrade holdings trade result copySize copyValue = holdings) ∧
    (∀ holdings trade result copySize copyValue,
      applyTrade holdings trade result copySize copyValue ≠ holdings →
      result.success = true) ∧
    (∀ orderId fr cancelError results cancels, fr.filled = false →
      settleFill orderId fr cancelError results cancels
        = (results ++ [false], cancels ++ [orderId])) ∧
    (∀ orderId fr e₁ e₂ results cancels,
      settleFill orderId fr e₁ results cancels = settleFill orderId fr e₂ results cancels) := by
  have hframe : ∀ (holdings : List (String × Holding)) trade result
      (copySize copyValue : ℚ), result.success = false →
      applyTrade holdings trade result copySize copyValue = holdings := by
    intro holdings trade result copySize copyValue h
    simp [applyTrade, h]
  refine ⟨hframe, ?_, ?_, ?_⟩
  · intro holdings trade result copySize copyValue hne
    cases hs : result.success with
    | true => rfl
    | false => exact absurd (hframe holdings trade result copySize copyValue hs) hne
  · intro orderId fr cancelError results cancels h
    simp [settleFill, h]
  · intro orderId fr e₁ e₂ results cancels
    rfl

/-- Closed corollary of `ledger_frame_on_failure` at a concrete input: a
failed SELL on a held token leaves the one-entry holdings map untouched, and
a timed-out fill settles as a failure with the cancel attempted. -/
theorem ledger_frame_on_failure_witness :
    applyTrade [("tok", ⟨5, 2, "m"⟩)] ⟨Side.SELL, some "tok", none⟩ ⟨false⟩ 3 1
      = [("tok", ⟨5, 2, "m"⟩)] ∧
    settleFill "oid" ⟨false, some OrderStatus.PARTIALLY_FILLED⟩ (some "cancel failed") [] []
      = ([false], ["oid"]) :=
  ⟨ledger_frame_on_failure.1 [("tok", ⟨5, 2, "m"⟩)] ⟨Side.SELL, some "tok", none⟩ ⟨false⟩ 3 1 rfl,
    ledger_frame_on_failure.2.2.1 "oid" ⟨false, some OrderStatus.PARTIALLY_FILLED⟩
      (some "cancel failed") [] [] rfl⟩

/-! ## C8 — worst-acceptable (slippage-adjusted) price
(crypto-copy-trade.ts 148-150 and 254) -/

/-- `MAX_SLIPPAGE = 0.05` of crypto-copy-trade. -/
def MAX_SLIPPAGE : ℚ := 5 / 100

/-- `slippagePrice` computed in `onTrade` (lines 148-150):
`trade.side === 'BUY' ? price * (1 + MAX_SLIPPAGE) : price * (1 - MAX_SLIPPAGE)`. -/
def slippagePrice (side : Side) (price : ℚ) : ℚ :=
  if side = .BUY then price * (1 + MAX_SLIPPAGE) else price * (1 - MAX_SLIPPAGE)

/-- `slipPrice` recomputed for the shutdown trade log (line 254), the same
conditional expression over the logged trade's side and price. -/
def slipPriceLog (side : Side) (price : ℚ) : ℚ :=
  if side = .BUY then price * (1 + MAX_SLIPPAGE) else price * (1 - MAX_SLIPPAGE)

/-- C8. Worst-acceptable price: for observed price p and the configured
slippage s = `MAX_SLIPPAGE`, the replica order's slippage-adjusted price is
`p * (1 + s)` for a BUY and `p * (1 - s)` for a SELL; the shutdown log's
recomputation agrees with the execution-path value, and for a non-negative
price the adjustment only worsens the price (BUY pays at least p, SELL
receives at most p). -/
theorem worst_acceptable_price (p : ℚ) :
    slippagePrice .BUY p = p * (1 + MAX_SLIPPAGE) ∧
    slippagePrice .SELL p = p * (1 - MAX_SLIPPAGE) ∧
    (∀ s, slipPriceLog s p = slippagePrice s p) ∧
    (0 ≤ p → slippagePrice .SELL p ≤ p ∧ p ≤ slippagePrice .BUY p) := by
  refine ⟨rfl, rfl, fun s => rfl, fun hp => ⟨?_, ?_⟩⟩
  · show p * (1 - MAX_SLIPPAGE) ≤ p
    rw [MAX_SLIPPAGE]
    nlinarith
  · show p ≤ p * (1 + MAX_SLIPPAGE)
    rw [MAX_SLIPPAGE]
    nlinarith

/-! ## C2 — SELL replica sizing clamped by held shares
(crypto-copy-trade.ts 126-137: `startAutoCopyTrading` options wiring) -/

/-- Modelled from the spec: the Risk Gate SELL sizing inside
`startAutoCopyTrading`, whose implementation is not part of this snapshot —
only its caller configuration (`noSellLimits`, `getPositionSharesForToken`)
is, in crypto-copy-trade.ts.  Per §4.3 of the spec, for SELL trades
`copySize` is clamped to `min(copySize, currentHeldShares(asset))`, and when
held shares are 0 the SELL yields no order: a skip counted in
`tradesSkipped`, not a failure. -/
def riskGateSell (copySize heldShares : ℚ) (stats : RunStats) : Option ℚ × RunStats :=
  if heldShares = 0 then
    (none, { stats with tradesSkipped := stats.tradesSkipped + 1 })
  else
    (some (min copySize heldShares), stats)

/-- C2. For every SELL source trade the replica copy size never exceeds the
currently held shares (it is `min(copySize, heldShares)`), and with zero held
shares the SELL yields no order: `tradesSkipped` is incremented while
`tradesFailed` and `tradesExecuted` stay put. -/
theorem sell_clamped_to_held_shares (copySize heldShares : ℚ) (stats : RunStats) :
    (∀ s, (riskGateSell copySize heldShares stats).1 = some s →
      s ≤ copySize ∧ s ≤ heldShares) ∧
    (heldShares = 0 →
      (riskGateSell copySize heldShares stats).1 = none ∧
      (riskGateSell copySize heldShares stats).2.tradesSkipped = stats.tradesSkipped + 1 ∧
      (riskGateSell copySize heldShares stats).2.tradesFailed = stats.tradesFailed ∧
      (riskGateSell copySize heldShares stats).2.tradesExecuted = stats.tradesExecuted) ∧
    (heldShares ≠ 0 →
      riskGateSell copySize heldShares stats = (some (min copySize heldShares), stats)) := by
  refine ⟨?_, ?_, ?_⟩
  · intro s hs
    by_cases h : heldShares = 0
    · simp [riskGateSell, h] at hs
    · simp only [riskGateSell, if_neg h, Option.some.injEq] at hs
      exact hs ▸ ⟨min_le_left _ _, min_le_right _ _⟩
  · intro h
    simp [riskGateSell, h]
  · intro h
    simp [riskGateSell, h]

/-- Closed corollary of `sell_clamped_to_held_shares`: a SELL sized 9 against
4 held shares is clamped to 4, and a SELL with zero held shares is recorded
as a skip with no order. -/
theorem sell_clamped_to_held_shares_witness :
    riskGateSell 9 4 ⟨0, 0, 0, 0, 0, 0⟩ = (some 4, ⟨0, 0, 0, 0, 0, 0⟩) ∧
    (riskGateSell 9 0 ⟨0, 0, 0, 0, 2, 0⟩).1 = none ∧
    (riskGateSell 9 0 ⟨0, 0, 0, 0, 2, 0⟩).2.tradesSkipped = 3 := by
  refine ⟨?_, ?_, ?_⟩
  · have h := (sell_clamped_to_held_shares 9 4 ⟨0, 0, 0, 0, 0, 0⟩).2.2 (by norm_num)
    rw [h]
    norm_num
  · exact ((sell_clamped_to_held_shares 9 0 ⟨0, 0, 0, 0, 2, 0⟩).2.1 rfl).1
  · exact ((sell_clamped_to_held_shares 9 0 ⟨0, 0, 0, 0, 2, 0⟩).2.1 rfl).2.1

/-! ## C9 — RelayerService result totality (src/services/relayer-service.ts) -/

/-- `RelayerState` enum of relayer-service.ts. -/
inductive RelayerState where
  | NEW
  | EXECUTED
  | MINED
  | CONFIRMED
  | FAILED
  | INVALID
deriving DecidableEq, Repr

/-- The transaction object `response.wait()` resolves to (the fields the
service reads: `state`, `transactionHash`, `to`). -/
structure RelayerTx where
  state : RelayerState
  transactionHash : Option String
  /-- the transaction's `to` field (`to` is a Lean keyword). -/
  toAddress : Option String
deriving DecidableEq, Repr

/-- One observed behaviour of the relay collaborator for one call:
`Except.error e` models a thrown exception (`some msg` an `Error` with that
message, `none` a non-`Error` throw), `Except.ok none` a null transaction
from `response.wait()`, `Except.ok (some tx)` a returned transaction. -/
def RelayBehavior : Type := Except (Option String) (Option RelayerTx)

/-- `RelayerResult` of relayer-service.ts. -/
structure RelayerResult where
  success : Bool
  txHash : Option String
  errorMessage : Option String
deriving DecidableEq, Repr

/-- `SafeDeployResult` of relayer-service.ts. -/
structure SafeDeployResult where
  success : Bool
  safeAddress : String
  txHash : Option String
  errorMessage : Option String
deriving DecidableEq, Repr

/-- `error instanceof Error ? error.message : 'Unknown error'` of every catch
block of the service. -/
def caughtMessage : Option String → String
  | some msg => msg
  | none => "Unknown error"

/-- The `STATE_*` string of a `RelayerState` (the enum values). -/
def stateString : RelayerState → String
  | .NEW => "STATE_NEW"
  | .EXECUTED => "STATE_EXECUTED"
  | .MINED => "STATE_MINED"
  | .CONFIRMED => "STATE_CONFIRMED"
  | .FAILED => "STATE_FAILED"
  | .INVALID => "STATE_INVALID"

/-- `RelayerService.deploySafe` (lines 143-188) over the collaborator's
behaviour: catch → failure with the caught message; null transaction →
failure; `STATE_FAILED` → failure; missing `tx.to` → failure; otherwise
success carrying the Safe address and the transaction hash. -/
def deploySafe (beh : RelayBehavior) : SafeDeployResult :=
  match beh with
  | .error e => ⟨false, "", none, some (caughtMessage e)⟩
  | .ok none => ⟨false, "", none, some "Deployment failed: No transaction returned"⟩
  | .ok (some tx) =>
    if tx.state = .FAILED then
      ⟨false, "", none, some ("Safe deployment failed: " ++ stateString tx.state)⟩
    else
      match tx.toAddress with
      | none => ⟨false, "", none, some "Safe address not found in transaction"⟩
      | some safeAddress => ⟨true, safeAddress, tx.transactionHash, none⟩

/-- The shared `execute → wait → check` tail of `approveUsdc`, `split`,
`merge`, `redeem` and `executeBatch` (their bodies are identical up to the
failure-message prefix): `!tx || tx.state === FAILED` fails with
`` `${prefix}: ${tx?.state || 'No transaction'}` ``, a catch fails with the
caught message, and otherwise the result is a success with the transaction
hash. -/
def relayExecuteResult (failureLabel : String) (beh : RelayBehavior) : RelayerResult :=
  match beh with
  | .error e => ⟨false, none, some (caughtMessage e)⟩
  | .ok none => ⟨false, none, some (failureLabel ++ ": No transaction")⟩
  | .ok (some tx) =>
    if tx.state = .FAILED then
      ⟨false, none, some (failureLabel ++ ": " ++ stateString tx.state)⟩
    else
      ⟨true, tx.transactionHash, none⟩

/-- `RelayerService.approveUsdc` (lines 196-226). -/
def approveUsdc (beh : RelayBehavior) : RelayerResult :=
  relayExecuteResult "USDC approval failed" beh

/-- `RelayerService.split` (lines 243-281). -/
def splitPositionCall (beh : RelayBehavior) : RelayerResult :=
  relayExecuteResult "Split failed" beh

/-- `RelayerService.merge` (lines 290-328). -/
def mergePositionsCall (beh : RelayBehavior) : RelayerResult :=
  relayExecuteResult "Merge failed" beh

/-- `RelayerService.redeem` (lines 337-374). -/
def redeemPositionsCall (beh : RelayBehavior) : RelayerResult :=
  relayExecuteResult "Redeem failed" beh

/-- `RelayerService.executeBatch` (lines 381-405). -/
def executeBatch (beh : RelayBehavior) : RelayerResult :=
  relayExecuteResult "Batch execution failed" beh

/-- A `Behavior → RelayerResult` operation is total in the claimed sense:
success exactly on a returned transaction whose state is not `FAILED`, the
transaction hash passed through on success, and an error message present on
every failure (thrown exception, missing transaction, `FAILED` state). -/
def TotalRelayOp (op : RelayBehavior → RelayerResult) : Prop :=
  ∀ beh : RelayBehavior,
    ((op beh).success = true ↔
      ∃ tx, beh = Except.ok (some tx) ∧ tx.state ≠ RelayerState.FAILED) ∧
    (∀ tx, beh = Except.ok (some tx) → tx.state ≠ RelayerState.FAILED →
      (op beh).txHash = tx.transactionHash) ∧
    ((op beh).success = false → ((op beh).errorMessage).isSome = true)

theorem relayExecuteResult_total (failureLabel : String) :
    TotalRelayOp (relayExecuteResult failureLabel) := by
  intro beh
  refine ⟨?_, ?_, ?_⟩
  · constructor
    · intro h
      match beh with
      | .error e => simp [relayExecuteResult] at h
      | .ok none => simp [relayExecuteResult] at h
      | .ok (some tx) =>
        refine ⟨tx, rfl, ?_⟩
        intro hf
        simp [relayExecuteResult, hf] at h
    · rintro ⟨tx, rfl, hst⟩
      simp [relayExecuteResult, if_neg hst]
  · rintro tx rfl hst
    simp [relayExecuteResult, if_neg hst]
  · intro h
    match beh with
    | .error e => simp [relayExecuteResult]
    | .ok none => simp [relayExecuteResult]
    | .ok (some tx) =>
      by_cases hf : tx.state = RelayerState.FAILED
      · simp [relayExecuteResult, hf]
      · simp [relayExecuteResult, if_neg hf] at h

/-- C9. Every public `RelayerService` operation is total over the
collaborator's behaviours: a thrown exception, a missing transaction or a
`FAILED` transaction state yields a returned result with `success = false`
and an `errorMessage` — never a propagated exception (the operations are
total functions of the behaviour) — and `success = true` holds exactly when a
transaction with a non-`FAILED` state was obtained, whose `transactionHash`
the result carries (`deploySafe` additionally requires and returns the Safe
address from `tx.to`). -/
theorem relayer_results_total :
    TotalRelayOp approveUsdc ∧ TotalRelayOp splitPositionCall ∧
    TotalRelayOp mergePositionsCall ∧ TotalRelayOp redeemPositionsCall ∧
    TotalRelayOp executeBatch ∧
    (∀ beh : RelayBehavior,
      ((deploySafe beh).success = true ↔
        ∃ tx, beh = Except.ok (some tx) ∧ tx.state ≠ RelayerState.FAILED ∧
          tx.toAddress = some (deploySafe beh).safeAddress ∧
          (deploySafe beh).txHash = tx.transactionHash) ∧
      ((deploySafe beh).success = false → ((deploySafe beh).errorMessage).isSome = true)) := by
  refine ⟨relayExecuteResult_total _, relayExecuteResult_total _, relayExecuteResult_total _,
    relayExecuteResult_total _, relayExecuteResult_total _, ?_⟩
  intro beh
  constructor
  · constructor
    · intro h
      match beh with
      | .error e => simp [deploySafe] at h
      | .ok none => simp [deploySafe] at h
      | .ok (some tx) =>
        by_cases hf : tx.state = RelayerState.FAILED
        · simp [deploySafe, hf] at h
        · match hto : tx.toAddress with
          | none => simp [deploySafe, if_neg hf, hto] at h
          | some addr =>
            refine ⟨tx, rfl, hf, ?_, ?_⟩ <;> simp [deploySafe, if_neg hf, hto]
    · rintro ⟨tx, rfl, hst, hto, _⟩
      match h : tx.toAddress with
      | none => rw [h] at hto; exact absurd hto (by simp)
      | some addr => simp [deploySafe, if_neg hst, h]
  · intro h
    match beh with
    | .error e => simp [deploySafe]
    | .ok none => simp [deploySafe]
    | .ok (some tx) =>
      by_cases hf : tx.state = RelayerState.FAILED
      · simp [deploySafe, hf]
      · match hto : tx.toAddress with
        | none => simp [deploySafe, if_neg hf, hto]
        | some addr => simp [deploySafe, if_neg hf, hto] at h

/-! ## C10 — matchOrders calldata decoder (src/utils/calldata-decoder.ts) -/

/-- An order tuple as the ABI layer hands it over (strings for addresses,
numbers for the uint256/uint8 fields). -/
structure RawOrder where
  maker : String
  signer : String
  taker : String
  tokenId : Nat
  makerAmount : Nat
  takerAmount : Nat
  side : Nat
deriving DecidableEq, Repr

/-- The full decoded `matchOrders` argument tuple from the ABI layer. -/
structure RawMatchOrders where
  takerOrder : RawOrder
  makerOrders : List RawOrder
  takerFillAmount : Nat
  makerFillAmounts : List Nat
deriving DecidableEq, Repr

/-- `DecodedOrder` of calldata-decoder.ts (every field a string except the
side number). -/
structure DecodedOrder where
  maker : String
  signer : String
  taker : String
  tokenId : String
  makerAmount : String
  takerAmount : String
  side : Nat
deriving DecidableEq, Repr

/-- `DecodedMatchOrders` of calldata-decoder.ts. -/
structure DecodedMatchOrders where
  takerOrder : DecodedOrder
  makerOrders : List DecodedOrder
  takerFillAmount : String
  makerFillAmounts : List String
deriving DecidableEq, Repr

/-- `MATCH_ORDERS_SELECTOR` of calldata-decoder.ts. -/
def MATCH_ORDERS_SELECTOR : String := "0x2287e350"

/-- `String.prototype.startsWith`: the characters of `p` are the prefix of
the characters of `s`. -/
def strStartsWith (s p : String) : Bool := decide (s.data.take p.data.length = p.data)

/-- `String.prototype.toLowerCase` on the ASCII hex addresses the decoder
handles: each character lowercased. -/
def strToLower (s : String) : String := ⟨s.data.map Char.toLower⟩

/-- `decodeOrder` (lines 93-103): lowercase the three addresses, render the
numeric fields as decimal strings, keep the side number. -/
def decodeOrder (raw : RawOrder) : DecodedOrder :=
  ⟨strToLower raw.maker, strToLower raw.signer, strToLower raw.taker,
    toString raw.tokenId, toString raw.makerAmount, toString raw.takerAmount, raw.side⟩

/-- `decodeMatchOrdersCalldata` (lines 109-122) with the ethers ABI decoding
of the collaborator made explicit (`abiDecode data = none` models a decode
that throws): inside the catch-all, data not starting with the selector gives
null, a decode failure gives null, and otherwise the raw orders are converted
by `decodeOrder` and the fill amounts rendered as decimal strings. -/
def decodeMatchOrdersCalldata (abiDecode : String → Option RawMatchOrders)
    (data : String) : Option DecodedMatchOrders :=
  if strStartsWith data MATCH_ORDERS_SELECTOR then
    match abiDecode data with
    | some raw =>
      some ⟨decodeOrder raw.takerOrder, raw.makerOrders.map decodeOrder,
        toString raw.takerFillAmount, raw.makerFillAmounts.map toString⟩
    | none => none
  else none

/-- A decoded order is the lowercased/stringified image of a raw order. -/
def DecodesFrom (o : DecodedOrder) (r : RawOrder) : Prop :=
  o.maker = strToLower r.maker ∧ o.signer = strToLower r.signer ∧ o.taker = strToLower r.taker ∧
  o.tokenId = toString r.tokenId ∧ o.makerAmount = toString r.makerAmount ∧
  o.takerAmount = toString r.takerAmount ∧ o.side = r.side

theorem decodesFrom_decodeOrder (r : RawOrder) : DecodesFrom (decodeOrder r) r :=
  ⟨rfl, rfl, rfl, rfl, rfl, rfl, rfl⟩

theorem forall₂_decodeOrder (rs : List RawOrder) :
    List.Forall₂ DecodesFrom (rs.map decodeOrder) rs := by
  induction rs with
  | nil => exact List.Forall₂.nil
  | cons r rest ih => exact List.Forall₂.cons (decodesFrom_decodeOrder r) ih

/-- C10. `decodeMatchOrdersCalldata` is total (a function of the input and of
the ABI collaborator's behaviour, never throwing): it returns `none` whenever
the data does not start with the `matchOrders` selector `0x2287e350` or the
ABI decoding fails, and every non-null result comes from a successful decode
of selector-prefixed data with all maker, signer and taker addresses
lowercased and all numeric fields rendered as decimal strings. -/
theorem decode_match_orders_spec (abiDecode : String → Option RawMatchOrders)
    (data : String) :
    (¬ strStartsWith data MATCH_ORDERS_SELECTOR = true →
      decodeMatchOrdersCalldata abiDecode data = none) ∧
    (abiDecode data = none → decodeMatchOrdersCalldata abiDecode data = none) ∧
    (∀ d, decodeMatchOrdersCalldata abiDecode data = some d →
      strStartsWith data MATCH_ORDERS_SELECTOR = true ∧
      ∃ raw, abiDecode data = some raw ∧
        DecodesFrom d.takerOrder raw.takerOrder ∧
        List.Forall₂ DecodesFrom d.makerOrders raw.makerOrders ∧
        d.takerFillAmount = toString raw.takerFillAmount ∧
        d.makerFillAmounts = raw.makerFillAmounts.map toString) := by
  refine ⟨?_, ?_, ?_⟩
  · intro h
    simp [decodeMatchOrdersCalldata, h]
  · intro h
    by_cases hs : strStartsWith data MATCH_ORDERS_SELECTOR
    · simp [decodeMatchOrdersCalldata, hs, h]
    · simp [decodeMatchOrdersCalldata, hs]
  · intro d hd
    by_cases hs : strStartsWith data MATCH_ORDERS_SELECTOR
    · refine ⟨hs, ?_⟩
      match hab : abiDecode data with
      | none => rw [decodeMatchOrdersCalldata, if_pos hs, hab] at hd; exact absurd hd (by simp)
      | some raw =>
        rw [decodeMatchOrdersCalldata, if_pos hs, hab, Option.some.injEq] at hd
        subst hd
        exact ⟨raw, rfl, decodesFrom_decodeOrder _, forall₂_decodeOrder _, rfl, rfl⟩
    · rw [decodeMatchOrdersCalldata, if_neg hs] at hd
      exact absurd hd (by simp)

/-- Closed corollary of `decode_match_orders_spec`: data with the wrong
selector decodes to null, and a successful decode lowercases the maker
address and stringifies the token id. -/
theorem decode_match_orders_spec_witness :
    decodeMatchOrdersCalldata (fun _ => none) "0xdeadbeef" = none ∧
    (decodeMatchOrdersCalldata
        (fun _ => some ⟨⟨"0xAB", "0xAB", "0xCD", 7, 10, 20, 0⟩, [], 3, []⟩)
        "0x2287e350ff").map (fun d => (d.takerOrder.maker, d.takerOrder.tokenId))
      = some ("0xab", "7") := by
  constructor
  · exact (decode_match_orders_spec (fun _ => none) "0xdeadbeef").1 (by decide)
  · have h := (decode_match_orders_spec
        (fun _ => some ⟨⟨"0xAB", "0xAB", "0xCD", 7, 10, 20, 0⟩, [], 3, []⟩)
        "0x2287e350ff")
    rfl

end PolySdk
